import Mathlib

/-!
# Verification of the diff-tool core (diff.rs, git.rs, viewer.rs)

A shallow embedding of the non-presentation logic of the repository:
the line diff builder (`FileDiff::from_contents`, `FileDiff::from_files`),
the dual-view aligner (`to_side_by_side`), git-backed change discovery
(`git_diff_files`), and the path tree builder (`insert_into_tree`,
`build_file_tree`).

The external line-comparison primitive (the `similar` crate) is an
external collaborator: every definition that needs it is parametrised
by a function `textDiff : String → String → List Change` producing the
ordered stream of tagged changes, exactly as the code consumes
`TextDiff::from_lines(..).iter_all_changes()`.
External processes (`git`) and the file system are modelled as an
explicit environment of query results.
-/

/-- `similar::ChangeTag`: the three classifications of a diffed line. -/
inductive ChangeTag where
  | equal
  | delete
  | insert
deriving DecidableEq, Repr

/-- One element of the stream produced by the external line-comparison
primitive: its tag and its text (`change.to_string_lossy()`). -/
abbrev Change := ChangeTag × String

/-- `DiffLine` from diff.rs: one line of a normalized diff. -/
structure DiffLine where
  tag : ChangeTag
  old_lineno : Option Nat
  new_lineno : Option Nat
  content : String
deriving DecidableEq, Repr

/-- `FileDiff` from diff.rs: one file's comparison result. -/
structure FileDiff where
  old_path : String
  new_path : String
  lines : List DiffLine
deriving DecidableEq, Repr

/-- Rust's `str::trim_end_matches('\n')`: drop every trailing newline
character from the stored text. -/
def trimEndNewlines (s : String) : String :=
  ⟨(s.data.reverse.dropWhile (fun c => c = '\n')).reverse⟩

/-- The numbering walk inside `FileDiff::from_contents`: traverse the
change stream once keeping the two counters `old_lineno` and
`new_lineno` (both starting at 0), incrementing and attaching them by
tag exactly as the `match tag` in diff.rs lines 33–47 does. -/
def numberChanges (old_lineno new_lineno : Nat) : List Change → List DiffLine
  | [] => []
  | (tag, text) :: rest =>
    match tag with
    | ChangeTag.equal =>
      { tag := ChangeTag.equal, old_lineno := some (old_lineno + 1),
        new_lineno := some (new_lineno + 1), content := trimEndNewlines text }
        :: numberChanges (old_lineno + 1) (new_lineno + 1) rest
    | ChangeTag.delete =>
      { tag := ChangeTag.delete, old_lineno := some (old_lineno + 1),
        new_lineno := none, content := trimEndNewlines text }
        :: numberChanges (old_lineno + 1) new_lineno rest
    | ChangeTag.insert =>
      { tag := ChangeTag.insert, old_lineno := none,
        new_lineno := some (new_lineno + 1), content := trimEndNewlines text }
        :: numberChanges old_lineno (new_lineno + 1) rest

/-- `FileDiff::from_contents`: feed the two texts to the comparison
primitive and number the resulting stream. -/
def FileDiff.from_contents (textDiff : String → String → List Change)
    (old_path new_path old_content new_content : String) : FileDiff :=
  { old_path := old_path, new_path := new_path,
    lines := numberChanges 0 0 (textDiff old_content new_content) }

/-- `SideBySideLine` from diff.rs. -/
structure SideBySideLine where
  left : Option DiffLine
  right : Option DiffLine
deriving DecidableEq, Repr

/-- One iteration of the `for line in lines` loop of `to_side_by_side`:
state is the `result` rows built so far together with the `delete_buf`
pending queue. -/
def sbsStep (acc : List SideBySideLine × List DiffLine) (line : DiffLine) :
    List SideBySideLine × List DiffLine :=
  let (result, delete_buf) := acc
  match line.tag with
  | ChangeTag.delete => (result, delete_buf ++ [line])
  | ChangeTag.insert =>
    match delete_buf with
    | del :: rest => (result ++ [{ left := some del, right := some line }], rest)
    | [] => (result ++ [{ left := none, right := some line }], [])
  | ChangeTag.equal =>
    (result ++ delete_buf.map (fun del => { left := some del, right := none })
      ++ [{ left := some line, right := some line }], [])

/-- `to_side_by_side` from diff.rs: run the loop from an empty result
and empty pending queue, then drain the remaining queue as left-only
rows. -/
def to_side_by_side (lines : List DiffLine) : List SideBySideLine :=
  let (result, delete_buf) := lines.foldl sbsStep ([], [])
  result ++ delete_buf.map (fun del => { left := some del, right := none })

/-- Modelled from the spec (§4.3), as the refinement companion of the
code's `to_side_by_side`: process the lines in order with one FIFO
pending queue of Removed lines; a Removed line is buffered; an Added
line pairs with the oldest pending entry or emits a right-only row; an
Unchanged line flushes the queue as left-only rows then emits a
both-sides row; at end of input the queue is flushed in order. -/
def alignRun : List DiffLine → List DiffLine → List SideBySideLine
  | [], pending => pending.map (fun d => { left := some d, right := none })
  | l :: rest, pending =>
    match l.tag with
    | ChangeTag.delete => alignRun rest (pending ++ [l])
    | ChangeTag.insert =>
      match pending with
      | d :: ps => { left := some d, right := some l } :: alignRun rest ps
      | [] => { left := none, right := some l } :: alignRun rest []
    | ChangeTag.equal =>
      pending.map (fun d => { left := some d, right := none })
        ++ ({ left := some l, right := some l } :: alignRun rest [])

/-- Modelled from the spec (§4.3): the aligner starts with an empty
pending queue. -/
def alignModel (lines : List DiffLine) : List SideBySideLine :=
  alignRun lines []

/-- Splitting a character list at every occurrence of a separator,
keeping empty segments (the behaviour of Rust's `str::split(sep)`). -/
def splitSep (sep : Char) : List Char → List (List Char)
  | [] => [[]]
  | c :: cs =>
    if c = sep then [] :: splitSep sep cs
    else
      match splitSep sep cs with
      | l :: ls => (c :: l) :: ls
      | [] => [[c]]

/-- Rust's `str::lines()`: split on newline characters, a final
trailing newline produces no empty last line, and a trailing carriage
return is stripped from each line. -/
def rustLines (s : String) : List String :=
  let parts := splitSep '\n' s.data
  let parts := if parts.getLast? = some [] then parts.dropLast else parts
  parts.map (fun l => String.mk (if l.getLast? = some '\r' then l.dropLast else l))

/-- Rust's `str::split('/')` used on paths by `build_file_tree`. -/
def splitSlash (s : String) : List String :=
  (splitSep '/' s.data).map String.mk

/-- A simple concrete instance of the external line-comparison
primitive, used to instantiate the parametrised theorems on concrete
inputs: identical texts yield all-Unchanged lines, otherwise all old
lines are Removed and all new lines Added (a legal full edit script). -/
def naiveTextDiff (old_content new_content : String) : List Change :=
  if old_content = new_content then
    (rustLines old_content).map (fun l => (ChangeTag.equal, l))
  else
    (rustLines old_content).map (fun l => (ChangeTag.delete, l)) ++
      (rustLines new_content).map (fun l => (ChangeTag.insert, l))

-- Sanity examples (spec §8 alignment examples).
example :
    to_side_by_side
      [⟨ChangeTag.delete, some 1, none, "p"⟩, ⟨ChangeTag.delete, some 2, none, "q"⟩,
       ⟨ChangeTag.insert, none, some 1, "x"⟩] =
      [⟨some ⟨ChangeTag.delete, some 1, none, "p"⟩, some ⟨ChangeTag.insert, none, some 1, "x"⟩⟩,
       ⟨some ⟨ChangeTag.delete, some 2, none, "q"⟩, none⟩] := by decide

/-! ## Numbering invariants of the line diff builder -/

theorem numberChanges_mem (cs : List Change) : ∀ (a b : Nat) (l : DiffLine),
    l ∈ numberChanges a b cs →
    ((l.old_lineno.isSome ↔ (l.tag = ChangeTag.equal ∨ l.tag = ChangeTag.delete)) ∧
     (l.new_lineno.isSome ↔ (l.tag = ChangeTag.equal ∨ l.tag = ChangeTag.insert)) ∧
     (∀ k, l.old_lineno = some k → a < k) ∧
     (∀ k, l.new_lineno = some k → b < k)) := by
  induction cs with
  | nil => intro a b l hl; simp [numberChanges] at hl
  | cons c rest ih =>
    intro a b l hl
    obtain ⟨tag, text⟩ := c
    cases tag <;> simp only [numberChanges, List.mem_cons] at hl <;>
      rcases hl with rfl | hl
    · simp
    · obtain ⟨h1, h2, h3, h4⟩ := ih (a + 1) (b + 1) l hl
      exact ⟨h1, h2, fun k hk => by have := h3 k hk; omega,
        fun k hk => by have := h4 k hk; omega⟩
    · simp
    · obtain ⟨h1, h2, h3, h4⟩ := ih (a + 1) b l hl
      exact ⟨h1, h2, fun k hk => by have := h3 k hk; omega, h4⟩
    · simp
    · obtain ⟨h1, h2, h3, h4⟩ := ih a (b + 1) l hl
      exact ⟨h1, h2, h3, fun k hk => by have := h4 k hk; omega⟩

theorem numberChanges_filterMap_old (cs : List Change) : ∀ (a b : Nat),
    (numberChanges a b cs).filterMap (fun l => l.old_lineno) =
      List.range' (a + 1) (cs.countP (fun c => decide (c.1 ≠ ChangeTag.insert))) := by
  induction cs with
  | nil => intro a b; simp [numberChanges]
  | cons c rest ih =>
    intro a b
    obtain ⟨tag, text⟩ := c
    cases tag <;>
      simp [numberChanges, List.filterMap_cons, ih, List.countP_cons, List.range'_succ]

theorem numberChanges_filterMap_new (cs : List Change) : ∀ (a b : Nat),
    (numberChanges a b cs).filterMap (fun l => l.new_lineno) =
      List.range' (b + 1) (cs.countP (fun c => decide (c.1 ≠ ChangeTag.delete))) := by
  induction cs with
  | nil => intro a b; simp [numberChanges]
  | cons c rest ih =>
    intro a b
    obtain ⟨tag, text⟩ := c
    cases tag <;>
      simp [numberChanges, List.filterMap_cons, ih, List.countP_cons, List.range'_succ]

/-- C2: in every `DiffLine` sequence produced by `FileDiff::from_contents`
(for any behaviour of the external comparison primitive), the old line
number is present iff the line is Unchanged or Removed, the new line
number is present iff the line is Unchanged or Added, neither is ever 0,
and the present old (resp. new) line numbers are exactly the consecutive
integers 1, 2, 3, … . -/
theorem c2_line_numbering (textDiff : String → String → List Change)
    (old_path new_path old_content new_content : String) (l : DiffLine)
    (hl : l ∈ (FileDiff.from_contents textDiff old_path new_path old_content new_content).lines) :
    ((l.old_lineno.isSome ↔ (l.tag = ChangeTag.equal ∨ l.tag = ChangeTag.delete)) ∧
     (l.new_lineno.isSome ↔ (l.tag = ChangeTag.equal ∨ l.tag = ChangeTag.insert)) ∧
     l.old_lineno ≠ some 0 ∧ l.new_lineno ≠ some 0) ∧
    ((FileDiff.from_contents textDiff old_path new_path old_content new_content).lines.filterMap
        (fun x => x.old_lineno) =
      List.range' 1
        ((FileDiff.from_contents textDiff old_path new_path old_content new_content).lines.filterMap
          (fun x => x.old_lineno)).length ∧
     (FileDiff.from_contents textDiff old_path new_path old_content new_content).lines.filterMap
        (fun x => x.new_lineno) =
      List.range' 1
        ((FileDiff.from_contents textDiff old_path new_path old_content new_content).lines.filterMap
          (fun x => x.new_lineno)).length) := by
  have hmem := numberChanges_mem (textDiff old_content new_content) 0 0 l hl
  obtain ⟨h1, h2, h3, h4⟩ := hmem
  constructor
  · refine ⟨h1, h2, fun h0 => ?_, fun h0 => ?_⟩
    · have := h3 0 h0; omega
    · have := h4 0 h0; omega
  · constructor
    · rw [FileDiff.from_contents, numberChanges_filterMap_old, List.length_range']
    · rw [FileDiff.from_contents, numberChanges_filterMap_new, List.length_range']

/-- Witness for C2 at a concrete input. -/
theorem c2_line_numbering_witness :
    (⟨ChangeTag.equal, some 1, some 1, "x"⟩ : DiffLine) ∈
      (FileDiff.from_contents naiveTextDiff "a" "b" "x\n" "x\n").lines ∧
    (((⟨ChangeTag.equal, some 1, some 1, "x"⟩ : DiffLine).old_lineno.isSome ↔
        ((⟨ChangeTag.equal, some 1, some 1, "x"⟩ : DiffLine).tag = ChangeTag.equal ∨
         (⟨ChangeTag.equal, some 1, some 1, "x"⟩ : DiffLine).tag = ChangeTag.delete)) ∧
     ((⟨ChangeTag.equal, some 1, some 1, "x"⟩ : DiffLine).new_lineno.isSome ↔
        ((⟨ChangeTag.equal, some 1, some 1, "x"⟩ : DiffLine).tag = ChangeTag.equal ∨
         (⟨ChangeTag.equal, some 1, some 1, "x"⟩ : DiffLine).tag = ChangeTag.insert)) ∧
     (⟨ChangeTag.equal, some 1, some 1, "x"⟩ : DiffLine).old_lineno ≠ some 0 ∧
     (⟨ChangeTag.equal, some 1, some 1, "x"⟩ : DiffLine).new_lineno ≠ some 0) ∧
    ((FileDiff.from_contents naiveTextDiff "a" "b" "x\n" "x\n").lines.filterMap
        (fun x => x.old_lineno) =
      List.range' 1
        ((FileDiff.from_contents naiveTextDiff "a" "b" "x\n" "x\n").lines.filterMap
          (fun x => x.old_lineno)).length ∧
     (FileDiff.from_contents naiveTextDiff "a" "b" "x\n" "x\n").lines.filterMap
        (fun x => x.new_lineno) =
      List.range' 1
        ((FileDiff.from_contents naiveTextDiff "a" "b" "x\n" "x\n").lines.filterMap
          (fun x => x.new_lineno)).length) := by
  refine ⟨by decide, ?_⟩
  exact c2_line_numbering naiveTextDiff "a" "b" "x\n" "x\n" _ (by decide)

/-! ## The dual-view aligner -/

theorem foldl_sbsStep (ls : List DiffLine) : ∀ (res : List SideBySideLine) (buf : List DiffLine),
    (ls.foldl sbsStep (res, buf)).1 ++
      (ls.foldl sbsStep (res, buf)).2.map (fun del => { left := some del, right := none }) =
    res ++ alignRun ls buf := by
  induction ls with
  | nil => intro res buf; simp [alignRun]
  | cons l rest ih =>
    intro res buf
    cases htag : l.tag with
    | delete =>
      have hstep : sbsStep (res, buf) l = (res, buf ++ [l]) := by simp [sbsStep, htag]
      simp only [List.foldl_cons, hstep, ih, alignRun, htag]
    | insert =>
      cases buf with
      | nil =>
        have hstep : sbsStep (res, ([] : List DiffLine)) l =
            (res ++ [{ left := none, right := some l }], []) := by simp [sbsStep, htag]
        simp only [List.foldl_cons, hstep, ih, alignRun, htag]
        simp
      | cons d ps =>
        have hstep : sbsStep (res, d :: ps) l =
            (res ++ [{ left := some d, right := some l }], ps) := by simp [sbsStep, htag]
        simp only [List.foldl_cons, hstep, ih, alignRun, htag]
        simp
    | equal =>
      have hstep : sbsStep (res, buf) l =
          (res ++ buf.map (fun del => { left := some del, right := none })
            ++ [{ left := some l, right := some l }], []) := by simp [sbsStep, htag]
      simp only [List.foldl_cons, hstep, ih, alignRun, htag]
      simp

theorem to_side_by_side_eq_alignRun (lines : List DiffLine) :
    to_side_by_side lines = alignRun lines [] := by
  have h := foldl_sbsStep lines [] []
  simpa [to_side_by_side] using h

/-- C3: the aligner of diff.rs computes exactly the single-pass FIFO
pending-queue algorithm of the specification: Removed lines are
buffered, an Added line pairs with the oldest pending Removed line or
emits a right-only row, an Unchanged line flushes the queue as
left-only rows and then emits a both-sides row, and at end of input the
remaining queue is flushed in order. -/
theorem c3_aligner_is_fifo_model (lines : List DiffLine) :
    to_side_by_side lines = alignModel lines :=
  to_side_by_side_eq_alignRun lines

theorem alignRun_countP_left (ls : List DiffLine) : ∀ (pending : List DiffLine),
    (alignRun ls pending).countP (fun r => r.left.isSome) =
      ls.countP (fun l => decide (l.tag = ChangeTag.delete)) +
        ls.countP (fun l => decide (l.tag = ChangeTag.equal)) + pending.length := by
  induction ls with
  | nil =>
    intro pending
    simp [alignRun, List.countP_map, Function.comp_def, List.countP_true]
  | cons l rest ih =>
    intro pending
    cases htag : l.tag with
    | delete =>
      simp only [alignRun, htag, ih, List.countP_cons, htag, List.length_append]
      simp [htag]
      omega
    | insert =>
      cases pending with
      | nil =>
        simp only [alignRun, htag]
        simp [List.countP_cons, htag, ih]
      | cons d ps =>
        simp only [alignRun, htag]
        simp [List.countP_cons, htag, ih]
        omega
    | equal =>
      simp only [alignRun, htag]
      simp [List.countP_cons, List.countP_append, htag, ih, List.countP_map,
        Function.comp_def, List.countP_true]
      omega

theorem alignRun_countP_right (ls : List DiffLine) : ∀ (pending : List DiffLine),
    (alignRun ls pending).countP (fun r => r.right.isSome) =
      ls.countP (fun l => decide (l.tag = ChangeTag.insert)) +
        ls.countP (fun l => decide (l.tag = ChangeTag.equal)) := by
  induction ls with
  | nil =>
    intro pending
    simp [alignRun, List.countP_map, Function.comp_def]
  | cons l rest ih =>
    intro pending
    cases htag : l.tag with
    | delete =>
      simp only [alignRun, htag]
      simp [List.countP_cons, htag, ih]
    | insert =>
      cases pending with
      | nil =>
        simp only [alignRun, htag]
        simp [List.countP_cons, htag, ih]
        omega
      | cons d ps =>
        simp only [alignRun, htag]
        simp [List.countP_cons, htag, ih]
        omega
    | equal =>
      simp only [alignRun, htag]
      simp [List.countP_cons, List.countP_append, htag, ih, List.countP_map,
        Function.comp_def]
      omega

/-- C4: alignment conservation — in the rows produced by
`to_side_by_side`, the number of rows with `left` set equals the number
of Removed plus Unchanged input lines, and the number of rows with
`right` set equals the number of Added plus Unchanged input lines. -/
theorem c4_alignment_conservation (lines : List DiffLine) :
    (to_side_by_side lines).countP (fun r => r.left.isSome) =
      lines.countP (fun l => decide (l.tag = ChangeTag.delete)) +
        lines.countP (fun l => decide (l.tag = ChangeTag.equal)) ∧
    (to_side_by_side lines).countP (fun r => r.right.isSome) =
      lines.countP (fun l => decide (l.tag = ChangeTag.insert)) +
        lines.countP (fun l => decide (l.tag = ChangeTag.equal)) := by
  rw [to_side_by_side_eq_alignRun]
  refine ⟨?_, alignRun_countP_right lines []⟩
  have h := alignRun_countP_left lines []
  simpa using h

theorem alignRun_row_invariants (ls : List DiffLine) : ∀ (pending : List DiffLine),
    (∀ d ∈ pending, d.tag = ChangeTag.delete) →
    ∀ row ∈ alignRun ls pending,
      (¬ (row.left = none ∧ row.right = none)) ∧
      (∀ l, row.left = some l → l.tag = ChangeTag.equal →
        row = { left := some l, right := some l }) ∧
      (∀ l, row.right = some l → l.tag = ChangeTag.equal →
        row = { left := some l, right := some l }) := by
  induction ls with
  | nil =>
    intro pending hp row hrow
    simp only [alignRun, List.mem_map] at hrow
    obtain ⟨d, hd, rfl⟩ := hrow
    refine ⟨by simp, ?_, by simp⟩
    intro l hl he
    simp only [Option.some.injEq] at hl
    subst hl
    exact absurd he (by simp [hp d hd])
  | cons x rest ih =>
    intro pending hp row hrow
    cases htag : x.tag with
    | delete =>
      simp only [alignRun, htag] at hrow
      exact ih (pending ++ [x]) (by
        intro d hd
        rcases List.mem_append.mp hd with h | h
        · exact hp d h
        · simp at h; subst h; exact htag) row hrow
    | insert =>
      cases hpend : pending with
      | nil =>
        subst hpend
        simp only [alignRun, htag] at hrow
        rcases List.mem_cons.mp hrow with rfl | h
        · refine ⟨by simp, by simp, ?_⟩
          intro l hl he
          simp only [Option.some.injEq] at hl
          subst hl
          exact absurd he (by simp [htag])
        · exact ih [] (by simp) row h
      | cons d ps =>
        subst hpend
        simp only [alignRun, htag] at hrow
        rcases List.mem_cons.mp hrow with rfl | h
        · constructor
          · simp
          constructor
          · intro l hl he
            simp only [Option.some.injEq] at hl
            subst hl
            exact absurd he (by simp [hp d (by simp)])
          · intro l hl he
            simp only [Option.some.injEq] at hl
            subst hl
            exact absurd he (by simp [htag])
        · exact ih ps (fun d' hd' => hp d' (by simp [hd'])) row h
    | equal =>
      simp only [alignRun, htag] at hrow
      rcases List.mem_append.mp hrow with h | h
      · simp only [List.mem_map] at h
        obtain ⟨d, hd, rfl⟩ := h
        refine ⟨by simp, ?_, by simp⟩
        intro l hl he
        simp only [Option.some.injEq] at hl
        subst hl
        exact absurd he (by simp [hp d hd])
      · rcases List.mem_cons.mp h with rfl | h
        · refine ⟨by simp, ?_, ?_⟩ <;>
          · intro l hl he
            simp only [Option.some.injEq] at hl
            subst hl
            rfl
        · exact ih [] (by simp) row h

/-- C5: every row produced by `to_side_by_side` has at least one side
present, and a row whose populated side is an Unchanged line carries
that same line on both sides. -/
theorem c5_row_invariants (lines : List DiffLine) (row : SideBySideLine)
    (hrow : row ∈ to_side_by_side lines) :
    (¬ (row.left = none ∧ row.right = none)) ∧
    (∀ l, row.left = some l → l.tag = ChangeTag.equal →
      row = { left := some l, right := some l }) ∧
    (∀ l, row.right = some l → l.tag = ChangeTag.equal →
      row = { left := some l, right := some l }) := by
  rw [to_side_by_side_eq_alignRun] at hrow
  exact alignRun_row_invariants lines [] (by simp) row hrow

/-- Witness for C5 at a concrete input. -/
theorem c5_row_invariants_witness :
    ((⟨some ⟨ChangeTag.equal, some 1, some 1, "x"⟩,
       some ⟨ChangeTag.equal, some 1, some 1, "x"⟩⟩ : SideBySideLine) ∈
      to_side_by_side [⟨ChangeTag.equal, some 1, some 1, "x"⟩]) ∧
    (¬ ((⟨some ⟨ChangeTag.equal, some 1, some 1, "x"⟩,
          some ⟨ChangeTag.equal, some 1, some 1, "x"⟩⟩ : SideBySideLine).left = none ∧
        (⟨some ⟨ChangeTag.equal, some 1, some 1, "x"⟩,
          some ⟨ChangeTag.equal, some 1, some 1, "x"⟩⟩ : SideBySideLine).right = none)) := by
  refine ⟨by decide, ?_⟩
  exact (c5_row_invariants [⟨ChangeTag.equal, some 1, some 1, "x"⟩] _ (by decide)).1

/-! ## Change discovery over the git working tree (git.rs)

External processes are modelled by an environment recording the
outcome of each read-only query the code issues.  Spawn failures (the
`map_err` arms) are not modelled: every query runs and yields an exit
status, stdout and stderr. -/

/-- The observable outcome of one external command invocation. -/
structure CmdOutput where
  success : Bool
  stdout : String
  stderr : String
deriving DecidableEq, Repr

/-- The environment of external queries issued by git.rs:
`git rev-parse --show-toplevel`, `git diff --name-only [--cached]`,
`git show <arg>`, `git ls-files --others --exclude-standard`, and
`fs::read_to_string` (an error carries the cause description). -/
structure GitEnv where
  revParse : CmdOutput
  diffNameOnly : Bool → CmdOutput
  showCmd : String → CmdOutput
  lsFilesOthers : CmdOutput
  readFile : String → Except String String

/-- Rust's `str::trim()` on the stdout of `rev-parse`. -/
def rustTrim (s : String) : String :=
  ⟨((s.data.dropWhile Char.isWhitespace).reverse.dropWhile Char.isWhitespace).reverse⟩

/-- `git_toplevel` from git.rs. -/
def git_toplevel (env : GitEnv) : Except String String :=
  if env.revParse.success = false then Except.error "Not a git repository"
  else Except.ok (rustTrim env.revParse.stdout)

/-- The argument the per-file `git show` invocation is built with
(git.rs lines 43–45), including the `ref_prefix` computed by
`if staged { "" } else { "" }` exactly as written in the source. -/
def showArg (staged : Bool) (file : String) : String :=
  let ref_prefix := if staged then "" else ""
  ":" ++ ref_prefix ++ file

/-- `old_content` in git.rs lines 47–57: stdout of `git show` on
success, the empty string on a non-zero exit. -/
def oldContentOf (env : GitEnv) (staged : Bool) (file : String) : String :=
  let old_output := env.showCmd (showArg staged file)
  if old_output.success then old_output.stdout else ""

/-- `fs::read_to_string(..).unwrap_or_default()`. -/
def readOrEmpty (env : GitEnv) (path : String) : String :=
  match env.readFile path with
  | Except.ok s => s
  | Except.error _ => ""

/-- `new_content` in git.rs lines 60–69: in staged mode the stdout of
`git show :{file}` (status unchecked), otherwise the working-tree file
content with read failures degraded to the empty string. -/
def newContentOf (env : GitEnv) (toplevel : String) (staged : Bool) (file : String) : String :=
  if staged then (env.showCmd (":" ++ file)).stdout
  else readOrEmpty env (toplevel ++ "/" ++ file)

/-- The changed-file list of git.rs lines 38–39. -/
def trackedFiles (env : GitEnv) (staged : Bool) : List String :=
  (rustLines (env.diffNameOnly staged).stdout).filter (fun l => l != "")

/-- The per-file loop of git.rs lines 42–77 as a map over the file list. -/
def trackedDiffs (textDiff : String → String → List Change) (env : GitEnv)
    (toplevel : String) (staged : Bool) (files : List String) : List FileDiff :=
  files.map (fun file =>
    FileDiff.from_contents textDiff file file (oldContentOf env staged file)
      (newContentOf env toplevel staged file))

/-- The untracked-file pass of git.rs lines 79–94: run only in
unstaged mode; a non-zero `ls-files` exit silently contributes
nothing. -/
def untrackedDiffs (textDiff : String → String → List Change) (env : GitEnv)
    (toplevel : String) : List FileDiff :=
  let untracked_output := env.lsFilesOthers
  if untracked_output.success then
    ((rustLines untracked_output.stdout).filter (fun l => l != "")).map (fun file =>
      FileDiff.from_contents textDiff file file ""
        (readOrEmpty env (toplevel ++ "/" ++ file)))
  else []

/-- All diffs gathered by `git_diff_files` before the emptiness check:
tracked changed files, then (in unstaged mode) untracked files. -/
def gatheredDiffs (textDiff : String → String → List Change) (env : GitEnv)
    (staged : Bool) (toplevel : String) : List FileDiff :=
  trackedDiffs textDiff env toplevel staged (trackedFiles env staged) ++
    (if staged = false then untrackedDiffs textDiff env toplevel else [])

/-- The error text of git.rs lines 96–99. -/
def noChangesMsg (staged : Bool) : String :=
  "No " ++ (if staged then "staged" else "unstaged") ++ " changes found"

/-- `git_diff_files` from git.rs. -/
def git_diff_files (textDiff : String → String → List Change) (env : GitEnv)
    (staged : Bool) : Except String (List FileDiff) :=
  match git_toplevel env with
  | Except.error e => Except.error e
  | Except.ok toplevel =>
    let output := env.diffNameOnly staged
    if output.success = false then
      Except.error ("git diff failed: " ++ output.stderr)
    else
      let diffs := gatheredDiffs textDiff env staged toplevel
      if diffs = [] then Except.error (noChangesMsg staged)
      else Except.ok diffs

/-- C1: contrary to the claim, staged-mode discovery does not pass the
last-commit content as the "old" text: both the "old" and the "new"
text come from the very same `git show :{file}` query (the
`ref_prefix` is the empty string in both branches of git.rs line 44),
so whenever that query succeeds the two texts handed to the diff
builder are identical — the index is compared against itself. -/
theorem c1_staged_compares_index_with_itself (env : GitEnv) (toplevel file : String)
    (h : (env.showCmd (":" ++ file)).success = true) :
    oldContentOf env true file = newContentOf env toplevel true file := by
  have harg : showArg true file = ":" ++ file := rfl
  rw [oldContentOf, harg, newContentOf]
  simp [h]

/-- A staged-mode environment whose index content for the single
changed file is "hello\n". -/
def envC1 : GitEnv :=
  { revParse := ⟨true, "repo", ""⟩
    diffNameOnly := fun _ => ⟨true, "f\n", ""⟩
    showCmd := fun _ => ⟨true, "hello\n", ""⟩
    lsFilesOthers := ⟨true, "", ""⟩
    readFile := fun _ => Except.ok "other\n" }

/-- Witness for C1's theorem: in `envC1` the `git show` query succeeds
and the staged "old" and "new" texts coincide. -/
theorem c1_staged_compares_index_with_itself_witness :
    ((envC1.showCmd (":" ++ "f")).success = true) ∧
    oldContentOf envC1 true "f" = newContentOf envC1 "repo" true "f" :=
  ⟨rfl, c1_staged_compares_index_with_itself envC1 "repo" "f" rfl⟩

/-- C6: once the repository root resolves and the changed-file listing
succeeds, `git_diff_files` returns the `NoChanges`-style error exactly
when the gathered diff collection (tracked changed files plus, in
unstaged mode, untracked files) is empty; a non-empty gathering is
returned as success, and in particular unstaged discovery with no
tracked changes but a non-empty untracked gathering succeeds with
exactly those untracked diffs. -/
theorem c6_no_changes_iff_empty (textDiff : String → String → List Change)
    (env : GitEnv) (staged : Bool)
    (h1 : env.revParse.success = true)
    (h2 : (env.diffNameOnly staged).success = true) :
    (git_diff_files textDiff env staged = Except.error (noChangesMsg staged) ↔
      gatheredDiffs textDiff env staged (rustTrim env.revParse.stdout) = []) ∧
    (gatheredDiffs textDiff env staged (rustTrim env.revParse.stdout) ≠ [] →
      git_diff_files textDiff env staged =
        Except.ok (gatheredDiffs textDiff env staged (rustTrim env.revParse.stdout))) ∧
    (staged = false → trackedFiles env false = [] →
      git_diff_files textDiff env false =
        Except.ok (untrackedDiffs textDiff env (rustTrim env.revParse.stdout)) ∨
      untrackedDiffs textDiff env (rustTrim env.revParse.stdout) = []) := by
  have htop : git_toplevel env = Except.ok (rustTrim env.revParse.stdout) := by
    simp [git_toplevel, h1]
  refine ⟨?_, ?_, ?_⟩
  · rw [git_diff_files, htop]
    simp only [h2, Bool.true_eq_false, if_false]
    by_cases hg : gatheredDiffs textDiff env staged (rustTrim env.revParse.stdout) = [] <;>
      simp [hg]
  · intro hne
    rw [git_diff_files, htop]
    simp only [h2, Bool.true_eq_false, if_false]
    simp [hne]
  · intro hs htr
    subst hs
    by_cases hu : untrackedDiffs textDiff env (rustTrim env.revParse.stdout) = []
    · exact Or.inr hu
    · refine Or.inl ?_
      rw [git_diff_files, htop]
      simp only [h2, Bool.true_eq_false, if_false]
      have hg : gatheredDiffs textDiff env false (rustTrim env.revParse.stdout) =
          untrackedDiffs textDiff env (rustTrim env.revParse.stdout) := by
        simp [gatheredDiffs, trackedDiffs, htr]
      rw [hg]
      simp [hu]

/-- An unstaged-mode environment with no tracked changes and one
untracked file. -/
def envC6 : GitEnv :=
  { revParse := ⟨true, "repo", ""⟩
    diffNameOnly := fun _ => ⟨true, "", ""⟩
    showCmd := fun _ => ⟨true, "", ""⟩
    lsFilesOthers := ⟨true, "u.txt\n", ""⟩
    readFile := fun _ => Except.ok "hello\n" }

/-- Witness for C6: in `envC6`, unstaged discovery has zero tracked
changes and one untracked file, and succeeds with the untracked diffs. -/
theorem c6_no_changes_iff_empty_witness :
    (envC6.revParse.success = true) ∧ ((envC6.diffNameOnly false).success = true) ∧
    git_diff_files naiveTextDiff envC6 false =
      Except.ok (untrackedDiffs naiveTextDiff envC6 (rustTrim envC6.revParse.stdout)) := by
  refine ⟨rfl, rfl, ?_⟩
  have h := (c6_no_changes_iff_empty naiveTextDiff envC6 false rfl rfl).2.2 rfl (by decide)
  rcases h with h | h
  · exact h
  · exact absurd h (by decide)

/-- An environment in which every VCS query fails with a non-zero exit. -/
def envC7a : GitEnv :=
  { revParse := ⟨true, "repo", ""⟩
    diffNameOnly := fun _ => ⟨false, "", "boom"⟩
    showCmd := fun _ => ⟨false, "", "fatal"⟩
    lsFilesOthers := ⟨false, "", "fatal"⟩
    readFile := fun _ => Except.ok "x\n" }

/-- An environment in which only the per-file `git show` query fails. -/
def envC7b : GitEnv :=
  { revParse := ⟨true, "repo", ""⟩
    diffNameOnly := fun _ => ⟨true, "f\n", ""⟩
    showCmd := fun _ => ⟨false, "", "fatal: path not in index"⟩
    lsFilesOthers := ⟨true, "", ""⟩
    readFile := fun _ => Except.ok "x\n" }

/-- C7 (counterexample): a non-zero exit of the per-file `git show`
content fetch does **not** fail the discovery request — in `envC7b`
that query fails, yet `git_diff_files` succeeds, substituting the
empty string for the stored content. -/
theorem c7_show_failure_does_not_abort :
    ((envC7b.showCmd (showArg false "f")).success = false) ∧
    git_diff_files naiveTextDiff envC7b false =
      Except.ok [FileDiff.from_contents naiveTextDiff "f" "f" "" "x\n"] :=
  ⟨rfl, rfl⟩

/-- C7 (amended): only the changed-file listing propagates a non-zero
exit as an error carrying the command's stderr; a failing per-file
content fetch degrades to the empty string, and a failing untracked
listing degrades to an empty untracked contribution. -/
theorem c7_vcs_failure_handling (textDiff : String → String → List Change)
    (env : GitEnv) (staged : Bool) (file toplevel : String) :
    (env.revParse.success = true → (env.diffNameOnly staged).success = false →
      git_diff_files textDiff env staged =
        Except.error ("git diff failed: " ++ (env.diffNameOnly staged).stderr)) ∧
    ((env.showCmd (showArg staged file)).success = false →
      oldContentOf env staged file = "") ∧
    (env.lsFilesOthers.success = false → untrackedDiffs textDiff env toplevel = []) := by
  refine ⟨?_, ?_, ?_⟩
  · intro h1 h2
    have htop : git_toplevel env = Except.ok (rustTrim env.revParse.stdout) := by
      simp [git_toplevel, h1]
    rw [git_diff_files, htop]
    simp [h2]
  · intro h
    simp [oldContentOf, h]
  · intro h
    simp [untrackedDiffs, h]

/-- Witness for C7's amended theorem in `envC7a`, where every query
fails. -/
theorem c7_vcs_failure_handling_witness :
    (envC7a.revParse.success = true) ∧ ((envC7a.diffNameOnly false).success = false) ∧
    ((envC7a.showCmd (showArg false "f")).success = false) ∧
    (envC7a.lsFilesOthers.success = false) ∧
    git_diff_files naiveTextDiff envC7a false =
      Except.error ("git diff failed: " ++ (envC7a.diffNameOnly false).stderr) ∧
    oldContentOf envC7a false "f" = "" ∧
    untrackedDiffs naiveTextDiff envC7a "repo" = [] := by
  refine ⟨rfl, rfl, rfl, rfl, ?_, ?_, ?_⟩
  · exact (c7_vcs_failure_handling naiveTextDiff envC7a false "f" "repo").1 rfl rfl
  · exact (c7_vcs_failure_handling naiveTextDiff envC7a false "f" "repo").2.1 rfl
  · exact (c7_vcs_failure_handling naiveTextDiff envC7a false "f" "repo").2.2 rfl

/-- C10: in git-backed discovery a failed working-tree read (for a
tracked changed file in unstaged mode, and likewise for an untracked
file) silently substitutes the empty string as the "new" text, which
differs from the "Error reading file: <cause>" placeholder used for
explicit pairs. -/
theorem c10_read_failure_is_empty (env : GitEnv) (toplevel file e : String)
    (h : env.readFile (toplevel ++ "/" ++ file) = Except.error e) :
    newContentOf env toplevel false file = "" ∧
    readOrEmpty env (toplevel ++ "/" ++ file) = "" ∧
    ("" : String) ≠ "Error reading file: " ++ e := by
  refine ⟨?_, ?_, ?_⟩
  · simp [newContentOf, readOrEmpty, h]
  · simp [readOrEmpty, h]
  · intro hc
    have hlen := congrArg String.length hc
    rw [String.length_append] at hlen
    have h0 : ("" : String).length = 0 := rfl
    have h20 : ("Error reading file: " : String).length = 20 := rfl
    omega

/-- An environment whose working-tree reads all fail. -/
def envC10 : GitEnv :=
  { revParse := ⟨true, "repo", ""⟩
    diffNameOnly := fun _ => ⟨true, "f\n", ""⟩
    showCmd := fun _ => ⟨true, "old\n", ""⟩
    lsFilesOthers := ⟨true, "", ""⟩
    readFile := fun _ => Except.error "permission denied" }

/-- Witness for C10 in `envC10`. -/
theorem c10_read_failure_is_empty_witness :
    (envC10.readFile ("repo" ++ "/" ++ "f") = Except.error "permission denied") ∧
    newContentOf envC10 "repo" false "f" = "" ∧
    readOrEmpty envC10 ("repo" ++ "/" ++ "f") = "" ∧
    ("" : String) ≠ "Error reading file: " ++ "permission denied" :=
  ⟨rfl, c10_read_failure_is_empty envC10 "repo" "f" "permission denied" rfl⟩

/-! ## Explicit file pairs (diff.rs `from_files`, viewer.rs `from_file_pairs`) -/

/-- `fs::read_to_string(path).unwrap_or_else(|e| format!("Error reading file: {e}"))`
in `FileDiff::from_files`. -/
def readOrPlaceholder (fsRead : String → Except String String) (path : String) : String :=
  match fsRead path with
  | Except.ok s => s
  | Except.error e => "Error reading file: " ++ e

/-- `FileDiff::from_files` from diff.rs. -/
def FileDiff.from_files (textDiff : String → String → List Change)
    (fsRead : String → Except String String) (old_path new_path : String) : FileDiff :=
  let old_content := readOrPlaceholder fsRead old_path
  let new_content := readOrPlaceholder fsRead new_path
  FileDiff.from_contents textDiff old_path new_path old_content new_content

/-- The state of `DiffViewer` relevant to discovery (viewer.rs). -/
structure DiffViewer where
  diffs : List FileDiff
  selected_index : Option Nat
deriving DecidableEq

/-- `DiffViewer::from_file_pairs` from viewer.rs. -/
def DiffViewer.from_file_pairs (textDiff : String → String → List Change)
    (fsRead : String → Except String String)
    (file_pairs : List (String × String)) : DiffViewer :=
  let diffs := file_pairs.map (fun p => FileDiff.from_files textDiff fsRead p.1 p.2)
  { diffs := diffs, selected_index := if diffs = [] then none else some 0 }

/-- C8: explicit-pair discovery builds exactly one FileDiff per
requested pair, each from the pair's two texts with an unreadable
side's text replaced by the single-line placeholder
`"Error reading file: <cause>"`; one bad path never aborts or omits
the others. -/
theorem c8_explicit_pairs_isolation (textDiff : String → String → List Change)
    (fsRead : String → Except String String)
    (file_pairs : List (String × String)) (p e : String)
    (hp : fsRead p = Except.error e) :
    (DiffViewer.from_file_pairs textDiff fsRead file_pairs).diffs.length =
      file_pairs.length ∧
    (DiffViewer.from_file_pairs textDiff fsRead file_pairs).diffs =
      file_pairs.map (fun pr => FileDiff.from_contents textDiff pr.1 pr.2
        (readOrPlaceholder fsRead pr.1) (readOrPlaceholder fsRead pr.2)) ∧
    readOrPlaceholder fsRead p = "Error reading file: " ++ e := by
  refine ⟨?_, ?_, ?_⟩
  · simp [DiffViewer.from_file_pairs]
  · simp [DiffViewer.from_file_pairs, FileDiff.from_files]
  · simp [readOrPlaceholder, hp]

/-- A file system in which exactly the path "bad" is unreadable. -/
def fsC8 : String → Except String String :=
  fun path => if path = "bad" then Except.error "denied" else Except.ok "x\n"

/-- Witness for C8 with one unreadable path among one requested pair. -/
theorem c8_explicit_pairs_isolation_witness :
    (fsC8 "bad" = Except.error "denied") ∧
    (DiffViewer.from_file_pairs naiveTextDiff fsC8 [("bad", "good")]).diffs.length =
      ([("bad", "good")] : List (String × String)).length ∧
    (DiffViewer.from_file_pairs naiveTextDiff fsC8 [("bad", "good")]).diffs =
      ([("bad", "good")] : List (String × String)).map
        (fun pr => FileDiff.from_contents naiveTextDiff pr.1 pr.2
          (readOrPlaceholder fsC8 pr.1) (readOrPlaceholder fsC8 pr.2)) ∧
    readOrPlaceholder fsC8 "bad" = "Error reading file: " ++ "denied" :=
  ⟨rfl, c8_explicit_pairs_isolation naiveTextDiff fsC8 [("bad", "good")] "bad" "denied" rfl⟩

/-! ## The path tree builder (viewer.rs)

`BTreeMap<String, TreeNode>` is modelled as an association list kept
strictly sorted by key; `mapInsert` is `BTreeMap::insert` (replacing an
existing binding in place) and also serves as the find-or-create step
of `entry(..).or_insert_with(..)`. -/

/-- `TreeNode` from viewer.rs. -/
inductive TreeNode where
  | directory (name : String) (children : List (String × TreeNode))
  | file (diff_index : Nat)

/-- The keys of a children mapping, in storage order. -/
def mapKeys (m : List (String × TreeNode)) : List String := m.map Prod.fst

/-- Lexicographic strict order on character lists (by code point,
which on UTF-8 data agrees with Rust's byte-wise `Ord` for `String`). -/
def listLtB : List Char → List Char → Bool
  | [], [] => false
  | [], _ :: _ => true
  | _ :: _, [] => false
  | a :: as, b :: bs =>
    if a.toNat < b.toNat then true
    else if b.toNat < a.toNat then false
    else listLtB as bs

/-- The key order of `BTreeMap<String, _>`. -/
def strLt (a b : String) : Bool := listLtB a.data b.data

/-- `BTreeMap::insert`: place the binding at its sorted position,
replacing an existing binding with the same key. -/
def mapInsert (k : String) (v : TreeNode) : List (String × TreeNode) → List (String × TreeNode)
  | [] => [(k, v)]
  | (k', v') :: rest =>
    if strLt k k' then (k, v) :: (k', v') :: rest
    else if k = k' then (k, v) :: rest
    else (k', v') :: mapInsert k v rest

/-- `BTreeMap::get`/`entry` lookup. -/
def mapLookup (k : String) : List (String × TreeNode) → Option TreeNode
  | [] => none
  | (k', v') :: rest => if k = k' then some v' else mapLookup k rest

/-- `insert_into_tree` from viewer.rs: the final segment inserts a
File; an intermediate segment finds-or-creates a Directory and recurses
into it, and silently does nothing further if the existing entry is a
File (the `if let Directory` guard). -/
def insert_into_tree : List (String × TreeNode) → List String → Nat → List (String × TreeNode)
  | root, [], _ => root
  | root, [p], diff_index => mapInsert p (TreeNode.file diff_index) root
  | root, p :: q :: rest, diff_index =>
    match mapLookup p root with
    | some (TreeNode.directory name children) =>
      mapInsert p
        (TreeNode.directory name (insert_into_tree children (q :: rest) diff_index)) root
    | some (TreeNode.file _) => root
    | none =>
      mapInsert p
        (TreeNode.directory p (insert_into_tree [] (q :: rest) diff_index)) root

/-- `build_file_tree` from viewer.rs: insert each diff's `new_path`,
split on '/', with its index. -/
def build_file_tree (diffs : List FileDiff) : List (String × TreeNode) :=
  diffs.enum.foldl
    (fun root pr => insert_into_tree root (splitSlash pr.2.new_path) pr.1) []

/-- Following a path's segments through the tree: each segment but the
last must reach a Directory, the last must reach a File, whose diff
index is returned. -/
def lookupChain : List (String × TreeNode) → List String → Option Nat
  | _, [] => none
  | root, [p] =>
    match mapLookup p root with
    | some (TreeNode.file i) => some i
    | _ => none
  | root, p :: q :: rest =>
    match mapLookup p root with
    | some (TreeNode.directory _ children) => lookupChain children (q :: rest)
    | _ => none

/-- A path is blocked in a tree when some proper leading segment run
reaches a File node, so `insert_into_tree` would silently stop. -/
def blockedB : List (String × TreeNode) → List String → Bool
  | _, [] => false
  | _, [_] => false
  | root, p :: q :: rest =>
    match mapLookup p root with
    | some (TreeNode.file _) => true
    | some (TreeNode.directory _ children) => blockedB children (q :: rest)
    | none => false

/-- Segment-wise prefix test on split paths. -/
def segPrefixB : List String → List String → Bool
  | [], _ => true
  | _ :: _, [] => false
  | a :: as, b :: bs => (a == b) && segPrefixB as bs

/-- Well-formedness of a tree node: every Directory's children are
keyed uniquely and in strictly increasing (lexicographic) order, at
every depth. -/
inductive NodeWF : TreeNode → Prop
  | file (diff_index : Nat) : NodeWF (TreeNode.file diff_index)
  | directory (name : String) (children : List (String × TreeNode)) :
      List.Pairwise (fun a b => strLt a b = true) (mapKeys children) →
      (∀ e ∈ children, NodeWF e.2) →
      NodeWF (TreeNode.directory name children)

/-- Well-formedness of a children mapping. -/
def mapWF (m : List (String × TreeNode)) : Prop :=
  List.Pairwise (fun a b => strLt a b = true) (mapKeys m) ∧ ∀ e ∈ m, NodeWF e.2

/-- `str::split` never yields an empty segment list. -/
theorem splitSep_ne_nil (sep : Char) (l : List Char) : splitSep sep l ≠ [] := by
  cases l with
  | nil => simp [splitSep]
  | cons c cs =>
    rw [splitSep]
    by_cases h : c = sep
    · simp [h]
    · simp only [h, if_false]
      cases hs : splitSep sep cs <;> simp

theorem splitSlash_ne_nil (s : String) : splitSlash s ≠ [] := by
  have := splitSep_ne_nil '/' s.data
  simp only [splitSlash, ne_eq, List.map_eq_nil_iff]
  exact this

/-- `dAB` and `dA`: a diff collection in which one new path is a
segment-wise proper prefix of another. -/
def dAB : FileDiff := ⟨"a/b", "a/b", []⟩

def dA : FileDiff := ⟨"a", "a", []⟩

/-- C9 (counterexample): with new paths "a/b" (index 0) and "a"
(index 1), inserting "a" replaces the directory "a" wholesale, so the
earlier path "a/b" no longer maps onto a chain of Directory nodes
terminated by a File carrying its diff index — the chain lookup for
"a/b" yields nothing instead of index 0. -/
theorem c9_prefix_collision_counterexample :
    lookupChain (build_file_tree [dAB, dA]) (splitSlash dAB.new_path) = none := by
  decide

/-! ## Order and map lemmas for the tree builder -/

theorem stringEqOfData {a b : String} (h : a.data = b.data) : a = b := by
  cases a; cases b; simp only at h; rw [h]

theorem listLtB_irrefl (l : List Char) : listLtB l l = false := by
  induction l with
  | nil => rfl
  | cons c cs ih => simp [listLtB, ih]

theorem strLt_irrefl (a : String) : strLt a a = false := listLtB_irrefl a.data

theorem listLtB_trans : ∀ (a b c : List Char),
    listLtB a b = true → listLtB b c = true → listLtB a c = true := by
  intro a
  induction a with
  | nil =>
    intro b c hab hbc
    cases b with
    | nil => simp [listLtB] at hab
    | cons y ys =>
      cases c with
      | nil => simp [listLtB] at hbc
      | cons z zs => simp [listLtB]
  | cons x xs ih =>
    intro b c hab hbc
    cases b with
    | nil => simp [listLtB] at hab
    | cons y ys =>
      cases c with
      | nil => simp [listLtB] at hbc
      | cons z zs =>
        simp only [listLtB] at hab hbc ⊢
        by_cases h1 : x.toNat < y.toNat
        · by_cases h2 : y.toNat < z.toNat
          · have hxz : x.toNat < z.toNat := by omega
            rw [if_pos hxz]
          · by_cases h4 : z.toNat < y.toNat
            · rw [if_neg h2, if_pos h4] at hbc
              exact absurd hbc (by simp)
            · have hxz : x.toNat < z.toNat := by omega
              rw [if_pos hxz]
        · by_cases h3 : y.toNat < x.toNat
          · rw [if_neg h1, if_pos h3] at hab
            exact absurd hab (by simp)
          · rw [if_neg h1, if_neg h3] at hab
            by_cases h2 : y.toNat < z.toNat
            · have hxz : x.toNat < z.toNat := by omega
              rw [if_pos hxz]
            · by_cases h4 : z.toNat < y.toNat
              · rw [if_neg h2, if_pos h4] at hbc
                exact absurd hbc (by simp)
              · rw [if_neg h2, if_neg h4] at hbc
                have hxz : ¬ x.toNat < z.toNat := by omega
                have hzx : ¬ z.toNat < x.toNat := by omega
                rw [if_neg hxz, if_neg hzx]
                exact ih ys zs hab hbc

theorem listLtB_total : ∀ (a b : List Char),
    listLtB a b = false → a ≠ b → listLtB b a = true := by
  intro a
  induction a with
  | nil =>
    intro b hab hne
    cases b with
    | nil => exact absurd rfl hne
    | cons y ys => simp [listLtB] at hab
  | cons x xs ih =>
    intro b hab hne
    cases b with
    | nil => simp [listLtB]
    | cons y ys =>
      simp only [listLtB] at hab ⊢
      by_cases h1 : x.toNat < y.toNat
      · simp [h1] at hab
      · by_cases h2 : y.toNat < x.toNat
        · simp [h2]
        · have hn : x.toNat = y.toNat := by omega
          have hxy : x = y := Char.eq_of_val_eq (UInt32.ext (by simpa [Char.toNat] using hn))
          subst hxy
          simp only [h1, h2, if_false] at hab ⊢
          refine ih ys hab ?_
          intro hys
          exact hne (by rw [hys])

theorem strLt_trans {a b c : String} (hab : strLt a b = true) (hbc : strLt b c = true) :
    strLt a c = true :=
  listLtB_trans a.data b.data c.data hab hbc

theorem strLt_total {a b : String} (hab : strLt a b = false) (hne : a ≠ b) :
    strLt b a = true := by
  refine listLtB_total a.data b.data hab ?_
  intro hd
  exact hne (stringEqOfData hd)

theorem mem_mapInsert (k : String) (v : TreeNode) :
    ∀ (m : List (String × TreeNode)) (e : String × TreeNode),
      e ∈ mapInsert k v m → e = (k, v) ∨ e ∈ m := by
  intro m
  induction m with
  | nil => intro e he; simpa [mapInsert] using he
  | cons hd rest ih =>
    intro e he
    obtain ⟨k', v'⟩ := hd
    rw [mapInsert] at he
    by_cases h1 : strLt k k' = true
    · simp only [h1, if_true] at he
      rcases List.mem_cons.mp he with rfl | he
      · exact Or.inl rfl
      · exact Or.inr he
    · simp only [h1, if_false] at he
      by_cases h2 : k = k'
      · simp only [h2, if_pos rfl] at he
        rcases List.mem_cons.mp he with rfl | he
        · exact Or.inl (by rw [h2])
        · exact Or.inr (List.mem_cons_of_mem _ he)
      · simp only [h2, if_false] at he
        rcases List.mem_cons.mp he with rfl | he
        · exact Or.inr (List.mem_cons_self _ _)
        · rcases ih e he with h | h
          · exact Or.inl h
          · exact Or.inr (List.mem_cons_of_mem _ h)

theorem mem_mapKeys_mapInsert (k : String) (v : TreeNode)
    (m : List (String × TreeNode)) (x : String)
    (hx : x ∈ mapKeys (mapInsert k v m)) : x = k ∨ x ∈ mapKeys m := by
  simp only [mapKeys, List.mem_map] at hx
  obtain ⟨e, he, rfl⟩ := hx
  rcases mem_mapInsert k v m e he with rfl | h
  · exact Or.inl rfl
  · exact Or.inr (by simp [mapKeys]; exact ⟨e.2, by simpa using h⟩)

theorem pairwise_mapInsert (k : String) (v : TreeNode) :
    ∀ (m : List (String × TreeNode)),
      List.Pairwise (fun a b => strLt a b = true) (mapKeys m) →
      List.Pairwise (fun a b => strLt a b = true) (mapKeys (mapInsert k v m)) := by
  intro m
  induction m with
  | nil => intro _; simp [mapInsert, mapKeys]
  | cons hd rest ih =>
    intro hp
    obtain ⟨a, w⟩ := hd
    simp only [mapKeys, List.map_cons, List.pairwise_cons] at hp
    obtain ⟨ha, hrest⟩ := hp
    rw [mapInsert]
    by_cases h1 : strLt k a = true
    · rw [if_pos h1]
      simp only [mapKeys, List.map_cons, List.pairwise_cons]
      refine ⟨?_, ha, hrest⟩
      intro x hx
      rcases List.mem_cons.mp hx with rfl | hx
      · exact h1
      · exact strLt_trans h1 (ha x hx)
    · rw [if_neg h1]
      by_cases h2 : k = a
      · rw [if_pos h2]
        subst h2
        simp only [mapKeys, List.map_cons, List.pairwise_cons]
        exact ⟨ha, hrest⟩
      · rw [if_neg h2]
        simp only [mapKeys, List.map_cons, List.pairwise_cons]
        refine ⟨?_, ih hrest⟩
        intro x hx
        rcases mem_mapKeys_mapInsert k v rest x (by simpa [mapKeys] using hx) with rfl | hx
        · have h1f : strLt x a = false := by
            revert h1
            cases strLt x a <;> simp
          exact strLt_total h1f h2
        · exact ha x hx

theorem mapWF_mapInsert {k : String} {v : TreeNode} {m : List (String × TreeNode)}
    (hm : mapWF m) (hv : NodeWF v) : mapWF (mapInsert k v m) := by
  refine ⟨pairwise_mapInsert k v m hm.1, ?_⟩
  intro e he
  rcases mem_mapInsert k v m e he with rfl | h
  · exact hv
  · exact hm.2 e h

theorem mapLookup_mapInsert (k k' : String) (v : TreeNode) :
    ∀ (m : List (String × TreeNode)),
      mapLookup k (mapInsert k' v m) = if k = k' then some v else mapLookup k m := by
  intro m
  induction m with
  | nil =>
    simp only [mapInsert, mapLookup]
  | cons hd rest ih =>
    obtain ⟨a, w⟩ := hd
    rw [mapInsert]
    by_cases h1 : strLt k' a = true
    · rw [if_pos h1]
      by_cases h2 : k = k' <;> simp [mapLookup, h2]
    · rw [if_neg h1]
      by_cases h2 : k' = a
      · rw [if_pos h2]
        subst h2
        by_cases h3 : k = k' <;> simp [mapLookup, h3]
      · rw [if_neg h2]
        simp only [mapLookup]
        rw [ih]
        by_cases h3 : k = a
        · have hkk' : ¬ k = k' := fun hc => h2 (hc ▸ h3)
          have hak' : ¬ a = k' := fun hc => h2 hc.symm
          simp [h3, hkk', hak']
        · simp [h3]

theorem mapLookup_mem {k : String} {v : TreeNode} :
    ∀ {m : List (String × TreeNode)}, mapLookup k m = some v → (k, v) ∈ m := by
  intro m
  induction m with
  | nil => intro h; simp [mapLookup] at h
  | cons hd rest ih =>
    intro h
    obtain ⟨a, w⟩ := hd
    rw [mapLookup] at h
    by_cases h1 : k = a
    · rw [if_pos h1] at h
      injection h with h
      subst h1
      subst h
      exact List.mem_cons_self _ _
    · rw [if_neg h1] at h
      exact List.mem_cons_of_mem _ (ih h)

theorem mapWF_nil : mapWF [] := ⟨List.Pairwise.nil, by simp⟩

theorem insert_into_tree_wf (parts : List String) :
    ∀ (root : List (String × TreeNode)) (i : Nat),
      mapWF root → mapWF (insert_into_tree root parts i) := by
  induction parts with
  | nil => intro root i h; exact h
  | cons p tail ih =>
    intro root i h
    cases tail with
    | nil =>
      exact mapWF_mapInsert h (NodeWF.file i)
    | cons q rest =>
      rw [insert_into_tree]
      cases hlook : mapLookup p root with
      | none =>
        have hch := ih [] i mapWF_nil
        exact mapWF_mapInsert h (NodeWF.directory _ _ hch.1 hch.2)
      | some node =>
        cases node with
        | file j => exact h
        | directory name children =>
          have hmem := mapLookup_mem hlook
          have hwf := h.2 _ hmem
          cases hwf with
          | directory _ _ hp hv =>
            have hch := ih children i ⟨hp, hv⟩
            exact mapWF_mapInsert h (NodeWF.directory _ _ hch.1 hch.2)

theorem build_file_tree_wf_aux (l : List (Nat × FileDiff)) :
    ∀ (root : List (String × TreeNode)), mapWF root →
      mapWF (l.foldl (fun r pr => insert_into_tree r (splitSlash pr.2.new_path) pr.1) root) := by
  induction l with
  | nil => intro root h; exact h
  | cons pr rest ih =>
    intro root h
    exact ih _ (insert_into_tree_wf _ _ _ h)

theorem build_file_tree_wf (diffs : List FileDiff) : mapWF (build_file_tree diffs) :=
  build_file_tree_wf_aux diffs.enum [] mapWF_nil

theorem blockedB_nil (parts : List String) : blockedB [] parts = false := by
  cases parts with
  | nil => rfl
  | cons p tail =>
    cases tail with
    | nil => rfl
    | cons q rest => simp [blockedB, mapLookup]

theorem lookupChain_nil (parts : List String) : lookupChain [] parts = none := by
  cases parts with
  | nil => rfl
  | cons p tail =>
    cases tail with
    | nil => simp [lookupChain, mapLookup]
    | cons q rest => simp [lookupChain, mapLookup]

theorem lookupChain_insert_self (parts : List String) :
    ∀ (root : List (String × TreeNode)) (i : Nat),
      parts ≠ [] → blockedB root parts = false →
      lookupChain (insert_into_tree root parts i) parts = some i := by
  induction parts with
  | nil => intro root i hne _; exact absurd rfl hne
  | cons p tail ih =>
    intro root i _ hblock
    cases tail with
    | nil =>
      rw [insert_into_tree, lookupChain, mapLookup_mapInsert]
      simp
    | cons q rest =>
      rw [insert_into_tree]
      rw [blockedB] at hblock
      cases hlook : mapLookup p root with
      | none =>
        rw [lookupChain, mapLookup_mapInsert]
        simp only [if_pos rfl]
        exact ih [] i (by simp) (blockedB_nil (q :: rest))
      | some node =>
        cases node with
        | file j =>
          rw [hlook] at hblock
          simp at hblock
        | directory name children =>
          rw [hlook] at hblock
          rw [lookupChain, mapLookup_mapInsert]
          simp only [if_pos rfl]
          exact ih children i (by simp) hblock

theorem lookupChain_mapInsert_ne {x y : String} (v : TreeNode)
    (root : List (String × TreeNode)) (zs : List String) (hxy : ¬ x = y) :
    lookupChain (mapInsert y v root) (x :: zs) = lookupChain root (x :: zs) := by
  cases zs with
  | nil => rw [lookupChain, lookupChain, mapLookup_mapInsert, if_neg hxy]
  | cons z zs' => rw [lookupChain, lookupChain, mapLookup_mapInsert, if_neg hxy]

theorem blockedB_mapInsert_ne {x y : String} (v : TreeNode)
    (root : List (String × TreeNode)) (zs : List String) (hxy : ¬ x = y) :
    blockedB (mapInsert y v root) (x :: zs) = blockedB root (x :: zs) := by
  cases zs with
  | nil => rfl
  | cons z zs' => rw [blockedB, blockedB, mapLookup_mapInsert, if_neg hxy]

theorem lookupChain_insert_other (a : List String) :
    ∀ (b : List String) (root : List (String × TreeNode)) (j : Nat),
      segPrefixB a b = false → segPrefixB b a = false →
      lookupChain (insert_into_tree root b j) a = lookupChain root a := by
  induction a with
  | nil => intro b root j ha _; simp [segPrefixB] at ha
  | cons x xs iha =>
    intro b root j ha hb
    cases b with
    | nil => simp [segPrefixB] at hb
    | cons y ys =>
      by_cases hxy : x = y
      · subst hxy
        have ha' : segPrefixB xs ys = false := by simpa [segPrefixB] using ha
        have hb' : segPrefixB ys xs = false := by simpa [segPrefixB] using hb
        cases ys with
        | nil => simp [segPrefixB] at hb'
        | cons y2 bs =>
          cases xs with
          | nil => simp [segPrefixB] at ha'
          | cons x2 as =>
            cases hlook : mapLookup x root with
            | none =>
              rw [insert_into_tree, hlook]
              show lookupChain
                (mapInsert x (TreeNode.directory x (insert_into_tree [] (y2 :: bs) j)) root)
                (x :: x2 :: as) = _
              rw [lookupChain, mapLookup_mapInsert]
              simp only [if_pos rfl]
              show lookupChain (insert_into_tree [] (y2 :: bs) j) (x2 :: as) = _
              rw [iha (y2 :: bs) [] j ha' hb', lookupChain_nil, lookupChain, hlook]
            | some node =>
              cases node with
              | file jf => rw [insert_into_tree, hlook]
              | directory name ch =>
                rw [insert_into_tree, hlook]
                show lookupChain
                  (mapInsert x (TreeNode.directory name (insert_into_tree ch (y2 :: bs) j)) root)
                  (x :: x2 :: as) = _
                rw [lookupChain, mapLookup_mapInsert]
                simp only [if_pos rfl]
                show lookupChain (insert_into_tree ch (y2 :: bs) j) (x2 :: as) = _
                rw [iha (y2 :: bs) ch j ha' hb', lookupChain, hlook]
      · cases ys with
        | nil =>
          rw [insert_into_tree]
          exact lookupChain_mapInsert_ne _ root xs hxy
        | cons y2 bs =>
          cases hlook : mapLookup y root with
          | none =>
            rw [insert_into_tree, hlook]
            show lookupChain
              (mapInsert y (TreeNode.directory y (insert_into_tree [] (y2 :: bs) j)) root)
              (x :: xs) = _
            exact lookupChain_mapInsert_ne _ root xs hxy
          | some node =>
            cases node with
            | file jf => rw [insert_into_tree, hlook]
            | directory name ch =>
              rw [insert_into_tree, hlook]
              show lookupChain
                (mapInsert y (TreeNode.directory name (insert_into_tree ch (y2 :: bs) j)) root)
                (x :: xs) = _
              exact lookupChain_mapInsert_ne _ root xs hxy

theorem blockedB_insert_other (a : List String) :
    ∀ (b : List String) (root : List (String × TreeNode)) (j : Nat),
      segPrefixB a b = false → segPrefixB b a = false →
      blockedB (insert_into_tree root b j) a = blockedB root a := by
  induction a with
  | nil => intro b root j ha _; simp [segPrefixB] at ha
  | cons x xs iha =>
    intro b root j ha hb
    cases b with
    | nil => simp [segPrefixB] at hb
    | cons y ys =>
      by_cases hxy : x = y
      · subst hxy
        have ha' : segPrefixB xs ys = false := by simpa [segPrefixB] using ha
        have hb' : segPrefixB ys xs = false := by simpa [segPrefixB] using hb
        cases ys with
        | nil => simp [segPrefixB] at hb'
        | cons y2 bs =>
          cases xs with
          | nil => simp [segPrefixB] at ha'
          | cons x2 as =>
            cases hlook : mapLookup x root with
            | none =>
              rw [insert_into_tree, hlook]
              show blockedB
                (mapInsert x (TreeNode.directory x (insert_into_tree [] (y2 :: bs) j)) root)
                (x :: x2 :: as) = _
              rw [blockedB, mapLookup_mapInsert]
              simp only [if_pos rfl]
              show blockedB (insert_into_tree [] (y2 :: bs) j) (x2 :: as) = _
              rw [iha (y2 :: bs) [] j ha' hb', blockedB_nil, blockedB, hlook]
            | some node =>
              cases node with
              | file jf => rw [insert_into_tree, hlook]
              | directory name ch =>
                rw [insert_into_tree, hlook]
                show blockedB
                  (mapInsert x (TreeNode.directory name (insert_into_tree ch (y2 :: bs) j)) root)
                  (x :: x2 :: as) = _
                rw [blockedB, mapLookup_mapInsert]
                simp only [if_pos rfl]
                show blockedB (insert_into_tree ch (y2 :: bs) j) (x2 :: as) = _
                rw [iha (y2 :: bs) ch j ha' hb', blockedB, hlook]
      · cases ys with
        | nil =>
          rw [insert_into_tree]
          exact blockedB_mapInsert_ne _ root xs hxy
        | cons y2 bs =>
          cases hlook : mapLookup y root with
          | none =>
            rw [insert_into_tree, hlook]
            show blockedB
              (mapInsert y (TreeNode.directory y (insert_into_tree [] (y2 :: bs) j)) root)
              (x :: xs) = _
            exact blockedB_mapInsert_ne _ root xs hxy
          | some node =>
            cases node with
            | file jf => rw [insert_into_tree, hlook]
            | directory name ch =>
              rw [insert_into_tree, hlook]
              show blockedB
                (mapInsert y (TreeNode.directory name (insert_into_tree ch (y2 :: bs) j)) root)
                (x :: xs) = _
              exact blockedB_mapInsert_ne _ root xs hxy

theorem insertAll_preserves (pl : List (List String × Nat)) :
    ∀ (root : List (String × TreeNode)) (a : List String),
      (∀ q ∈ pl, segPrefixB a q.1 = false ∧ segPrefixB q.1 a = false) →
      lookupChain (pl.foldl (fun r q => insert_into_tree r q.1 q.2) root) a =
        lookupChain root a := by
  induction pl with
  | nil => intro root a _; rfl
  | cons q pl' ih =>
    intro root a hq
    rw [List.foldl_cons]
    rw [ih _ a (fun q' hq' => hq q' (List.mem_cons_of_mem _ hq'))]
    exact lookupChain_insert_other a q.1 root q.2
      (hq q (List.mem_cons_self _ _)).1 (hq q (List.mem_cons_self _ _)).2

theorem insertAll_lookup (pl : List (List String × Nat)) :
    ∀ (root : List (String × TreeNode)),
      (∀ pr ∈ pl, pr.1 ≠ []) →
      (∀ pr ∈ pl, blockedB root pr.1 = false) →
      List.Pairwise (fun p q =>
        segPrefixB p.1 q.1 = false ∧ segPrefixB q.1 p.1 = false) pl →
      ∀ pr ∈ pl,
        lookupChain (pl.foldl (fun r q => insert_into_tree r q.1 q.2) root) pr.1 =
          some pr.2 := by
  induction pl with
  | nil => intro root _ _ _ pr hpr; simp at hpr
  | cons q pl' ih =>
    intro root hne hblock hpw pr hpr
    rw [List.foldl_cons]
    rw [List.pairwise_cons] at hpw
    obtain ⟨hq, hpw'⟩ := hpw
    rcases List.mem_cons.mp hpr with rfl | hpr
    · have hpres : ∀ q' ∈ pl',
          segPrefixB pr.1 q'.1 = false ∧ segPrefixB q'.1 pr.1 = false :=
        fun q' hq' => hq q' hq'
      rw [insertAll_preserves pl' _ pr.1 hpres]
      exact lookupChain_insert_self pr.1 root pr.2
        (hne pr (List.mem_cons_self _ _)) (hblock pr (List.mem_cons_self _ _))
    · refine ih _ (fun p hp => hne p (List.mem_cons_of_mem _ hp)) ?_ hpw' pr hpr
      intro p hp
      rw [blockedB_insert_other p.1 q.1 root q.2 (hq p hp).2 (hq p hp).1]
      exact hblock p (List.mem_cons_of_mem _ hp)

theorem mem_enum_snd {l : List FileDiff} {i : Nat} {d : FileDiff}
    (h : (i, d) ∈ l.enum) : d ∈ l := by
  have hm := List.mem_map_of_mem Prod.snd h
  rwa [List.enum_map_snd] at hm

/-- C9 (amended): for every input diff collection in which no new path
is a segment-wise prefix of another (in particular all new paths are
distinct), the tree built by `build_file_tree` has, in every Directory,
children unique by name and strictly sorted lexicographically, and each
input path's segments map onto a chain of Directory nodes terminated by
a File node carrying that path's diff index. -/
theorem c9_tree_invariants (diffs : List FileDiff)
    (hpf : List.Pairwise (fun d1 d2 =>
      segPrefixB (splitSlash d1.new_path) (splitSlash d2.new_path) = false ∧
      segPrefixB (splitSlash d2.new_path) (splitSlash d1.new_path) = false) diffs) :
    mapWF (build_file_tree diffs) ∧
    (∀ (i : Nat) (d : FileDiff), (i, d) ∈ diffs.enum →
      lookupChain (build_file_tree diffs) (splitSlash d.new_path) = some i) := by
  constructor
  · exact build_file_tree_wf diffs
  · intro i d hid
    have hb : build_file_tree diffs =
        (diffs.enum.map (fun pr => (splitSlash pr.2.new_path, pr.1))).foldl
          (fun r q => insert_into_tree r q.1 q.2) [] := by
      rw [build_file_tree, List.foldl_map]
    rw [hb]
    have hmem : ((splitSlash d.new_path, i) : List String × Nat) ∈
        diffs.enum.map (fun pr => (splitSlash pr.2.new_path, pr.1)) :=
      List.mem_map_of_mem _ hid
    have hne : ∀ pr ∈ diffs.enum.map (fun pr => (splitSlash pr.2.new_path, pr.1)),
        pr.1 ≠ [] := by
      intro pr hpr
      simp only [List.mem_map] at hpr
      obtain ⟨q, _, rfl⟩ := hpr
      exact splitSlash_ne_nil _
    have hblock : ∀ pr ∈ diffs.enum.map (fun pr => (splitSlash pr.2.new_path, pr.1)),
        blockedB [] pr.1 = false := fun pr _ => blockedB_nil pr.1
    have h1 : List.Pairwise (fun a b : Nat × FileDiff =>
        segPrefixB (splitSlash a.2.new_path) (splitSlash b.2.new_path) = false ∧
        segPrefixB (splitSlash b.2.new_path) (splitSlash a.2.new_path) = false)
        diffs.enum := by
      have h2 := hpf
      rw [← List.enum_map_snd diffs] at h2
      exact List.pairwise_map.mp h2
    have hpw : List.Pairwise (fun p q : List String × Nat =>
        segPrefixB p.1 q.1 = false ∧ segPrefixB q.1 p.1 = false)
        (diffs.enum.map (fun pr => (splitSlash pr.2.new_path, pr.1))) :=
      List.pairwise_map.mpr h1
    exact insertAll_lookup _ [] hne hblock hpw (splitSlash d.new_path, i) hmem

def dW1 : FileDiff := ⟨"a/b.txt", "a/b.txt", []⟩

def dW2 : FileDiff := ⟨"a/c.txt", "a/c.txt", []⟩

def dW3 : FileDiff := ⟨"d.txt", "d.txt", []⟩

/-- Witness for C9 on the specification's tree example
(paths "a/b.txt", "a/c.txt", "d.txt"). -/
theorem c9_tree_invariants_witness :
    (List.Pairwise (fun d1 d2 =>
      segPrefixB (splitSlash d1.new_path) (splitSlash d2.new_path) = false ∧
      segPrefixB (splitSlash d2.new_path) (splitSlash d1.new_path) = false)
      [dW1, dW2, dW3]) ∧
    (mapWF (build_file_tree [dW1, dW2, dW3]) ∧
      (∀ (i : Nat) (d : FileDiff), (i, d) ∈ ([dW1, dW2, dW3] : List FileDiff).enum →
        lookupChain (build_file_tree [dW1, dW2, dW3]) (splitSlash d.new_path) = some i)) :=
  ⟨by decide, c9_tree_invariants [dW1, dW2, dW3] (by decide)⟩
